import Mathlib

/-!
Verification of the balance-synchronization pipeline of the polygon-dai-monit
dashboard: the history ledger (`updateWalletHistory`), the chunked multicall
balance reader (`fetchBalancesBatch`), the local/remote wallet store
(`getWallets` / `saveWallets`) and the sync orchestrator decisions
(`autoSyncTriggered`, `handleSyncBalances`, `registerAddresses`).

Conventions of the embedding:
* JavaScript strings are Lean `String`s; the string operations used by the
  source (`split('T')[0]`, `startsWith`, `toLowerCase`) are defined below on
  the underlying character lists.
* JavaScript numbers holding token amounts are modelled as exact rationals
  (`ℚ`); `formatUnits(x, 18)` followed by `parseFloat` is modelled as the
  exact value `x / 10 ^ 18`.
* Asynchronous effects are modelled by explicit state passing over
  `StoreState`, and fallible network calls return `Except`.
* A JavaScript `Map` is modelled as an insertion-ordered association list;
  `Map.set` replaces in place when the key is present and appends otherwise.
-/

/-- `s.toLowerCase()` on a JS string: lowercase every character. -/
def strToLower (s : String) : String := ⟨s.data.map Char.toLower⟩

/-- `s.split('T')[0]`: the characters of `s` before the first `'T'`.
Used by the source to extract the calendar date `YYYY-MM-DD` from an ISO
timestamp. -/
def calDate (s : String) : String := ⟨s.data.takeWhile (fun c => c ≠ 'T')⟩

/-- `s.startsWith(p)` on JS strings. -/
def strStartsWith (s p : String) : Bool := p.data.isPrefixOf s.data

/-- One `{date, balance}` entry of a wallet's history
(`HistoricalRecord` in `types.ts`); `date` holds a full ISO timestamp. -/
structure HistoricalRecord where
  date : String
  balance : ℚ
deriving DecidableEq, Repr

/-- One tracked address (`WalletData` in `types.ts`). -/
structure WalletData where
  address : String
  owner : String
  initialBalance : ℚ
  initialBlock : Nat
  currentBalance : ℚ
  lastUpdated : String
  history : List HistoricalRecord
deriving DecidableEq, Repr

/-- `updateWalletHistory` from `storageService.ts`: fold one balance
observation into a wallet record.  If the last history entry's date starts
with the observation's calendar date the last entry is overwritten, else the
observation is pushed; a history longer than 7 entries then loses its oldest
entry (`shift`). -/
def updateWalletHistory (wallet : WalletData) (newBalance : ℚ) (currentDate : String) :
    WalletData :=
  let todayStr := calDate currentDate
  let newHistory : List HistoricalRecord :=
    match wallet.history.getLast? with
    | some lastEntry =>
      if strStartsWith lastEntry.date todayStr then
        wallet.history.dropLast ++ [⟨currentDate, newBalance⟩]
      else
        wallet.history ++ [⟨currentDate, newBalance⟩]
    | none => wallet.history ++ [⟨currentDate, newBalance⟩]
  let trimmed := if 7 < newHistory.length then newHistory.tail else newHistory
  { wallet with
      currentBalance := newBalance
      lastUpdated := currentDate
      history := trimmed }

/-- A concrete 7-entry history (one entry per day, as the app produces). -/
def hist7 : List HistoricalRecord :=
  [⟨"2024-01-01T08:00:00.000Z", 1⟩, ⟨"2024-01-02T08:00:00.000Z", 2⟩,
   ⟨"2024-01-03T08:00:00.000Z", 3⟩, ⟨"2024-01-04T08:00:00.000Z", 4⟩,
   ⟨"2024-01-05T08:00:00.000Z", 5⟩, ⟨"2024-01-06T08:00:00.000Z", 6⟩,
   ⟨"2024-01-07T08:00:00.000Z", 7⟩]

/-- A concrete wallet record whose history is full (7 entries). -/
def w7 : WalletData :=
  ⟨"0xaaaaaaaaaaaaaaaaaaaaaaaaaaaaaaaaaaaaaaaa", "whale", 1, 100, 7,
   "2024-01-07T08:00:00.000Z", hist7⟩

/-- A concrete wallet record with a single history entry. -/
def w1 : WalletData :=
  ⟨"0xbbbbbbbbbbbbbbbbbbbbbbbbbbbbbbbbbbbbbbbb", "fish", 1, 100, 1,
   "2024-01-01T08:00:00.000Z", [⟨"2024-01-01T08:00:00.000Z", 1⟩]⟩

/-- A JS `Map<string, number>`'s `set`, on an insertion-ordered association
list: replace in place when the key is present, append otherwise. -/
def mapSet : List (String × ℚ) → String → ℚ → List (String × ℚ)
  | [], k, v => [(k, v)]
  | p :: rest, k, v => if p.1 = k then (k, v) :: rest else p :: mapSet rest k v

/-- A JS `Map<string, number>`'s `get`. -/
def mapGet : List (String × ℚ) → String → Option ℚ
  | [], _ => none
  | p :: rest, k => if p.1 = k then some p.2 else mapGet rest k

/-- The slicing loop of `fetchBalancesBatch`
(`for (i = 0; i < calls.length; i += CHUNK_SIZE)` with `CHUNK_SIZE = 100`),
written with a fuel argument so the recursion is structural. -/
def chunks100F : Nat → List String → List (List String)
  | 0, _ => []
  | _ + 1, [] => []
  | f + 1, a :: l => ((a :: l).take 100) :: chunks100F f ((a :: l).drop 100)

/-- The consecutive at-most-100-element slices of `l`. -/
def chunks100 (l : List String) : List (List String) := chunks100F l.length l

/-- The `chunkCalls.forEach` body of `fetchBalancesBatch`: a successful
sub-call stores the 18-decimal balance `raw / 10^18` for its address, a
failed sub-call stores `0`. -/
def applyChunk (m : List (String × ℚ)) (chunk : List String)
    (rs : List (Bool × Nat)) : List (String × ℚ) :=
  (chunk.zip rs).foldl
    (fun acc p =>
      if p.2.1 then mapSet acc p.1 ((p.2.2 : ℚ) / 10 ^ 18)
      else mapSet acc p.1 0) m

/-- The chunk loop of `fetchBalancesBatch`: one `aggregate3` call per chunk
through the aggregator oracle `agg`; a throwing call aborts the whole loop.
Also returns the list of aggregator calls actually issued. -/
def runChunks (agg : List String → Except String (List (Bool × Nat))) :
    List (String × ℚ) → List (List String) →
    Except String (List (String × ℚ)) × List (List String)
  | m, [] => (Except.ok m, [])
  | m, c :: rest =>
    match agg c with
    | Except.error e => (Except.error e, [c])
    | Except.ok rs =>
      let out := runChunks agg (applyChunk m c rs) rest
      (out.1, c :: out.2)

/-- `fetchBalancesBatch` from `web3Service.ts`: empty input returns an empty
map with no aggregator call; otherwise the addresses are processed in chunks
of at most 100.  `agg` abstracts the `aggregate3` read call, returning one
`(success, returnData)` pair per sub-call or a transport error for the whole
chunk. -/
def fetchBalancesBatch (agg : List String → Except String (List (Bool × Nat)))
    (addresses : List String) :
    Except String (List (String × ℚ)) × List (List String) :=
  if addresses.isEmpty then (Except.ok [], [])
  else runChunks agg [] (chunks100 addresses)

/-- The per-chunk sub-call results delivered by the aggregator oracle
(`[]` for a chunk whose call failed). -/
def chunkResults (agg : List String → Except String (List (Bool × Nat)))
    (c : List String) : List (Bool × Nat) :=
  match agg c with
  | Except.ok rs => rs
  | Except.error _ => []

/-- All sub-call results of a fetch, in input order. -/
def allResults (agg : List String → Except String (List (Bool × Nat)))
    (addrs : List String) : List (Bool × Nat) :=
  ((chunks100 addrs).map (chunkResults agg)).flatten

/-- The persistent store: the remote `wallets` document (`[]` when absent),
the local `localStorage` cache (`none` when the key is unset), and the two
copies of the last-sync timestamp. -/
structure StoreState where
  remoteWallets : List WalletData
  localWallets : Option (List WalletData)
  remoteLast : Option String
  localLast : Option String
deriving DecidableEq, Repr

/-- One observable write performed by `saveWallets`, in program order. -/
inductive WriteEvent where
  | localWrite (ws : List WalletData)
  | remoteWrite (ws : List WalletData) (ok : Bool)
deriving DecidableEq, Repr

/-- `saveWallets` from `storageService.ts` (final version): write the whole
collection to the local cache first, then mirror it to the remote store when
remote is enabled (`re`); a failing remote upsert (`rok = false`) is only
logged and does not affect the local write, and is not retried.  Returns the
new state and the ordered write events. -/
def saveWallets (ws : List WalletData) (re rok : Bool) (st : StoreState) :
    StoreState × List WriteEvent :=
  let st1 := { st with localWallets := some ws }
  if re then
    if rok then
      ({ st1 with remoteWallets := ws },
       [WriteEvent.localWrite ws, WriteEvent.remoteWrite ws true])
    else (st1, [WriteEvent.localWrite ws, WriteEvent.remoteWrite ws false])
  else (st1, [WriteEvent.localWrite ws])

/-- `setLastUpdateTime` from `storageService.ts` (final version): local
first, then the remote upsert when remote is enabled and reachable. -/
def setLastUpdateTime (iso : String) (re rok : Bool) (st : StoreState) : StoreState :=
  let st1 := { st with localLast := some iso }
  if re then (if rok then { st1 with remoteLast := some iso } else st1) else st1

/-- `getWallets` from `storageService.ts` (final version), remote-enabled
success path: fetch the remote collection, append every local record whose
lowercased address is absent from the (original) remote collection, save the
merged collection back only when something was appended, and overwrite the
local cache with the merged collection.  Returns the load result, the new
state, and whether a save-back to the remote store occurred. -/
def getWallets (st : StoreState) : List WalletData × StoreState × Bool :=
  let cloud := st.remoteWallets
  match st.localWallets with
  | some lws =>
    if lws.isEmpty then (cloud, { st with localWallets := some cloud }, false)
    else
      let cloudKeys := cloud.map (fun w => strToLower w.address)
      let appended := lws.filter (fun lw => !(cloudKeys.contains (strToLower lw.address)))
      let merged := cloud ++ appended
      if appended.isEmpty then (merged, { st with localWallets := some merged }, false)
      else
        (merged, { (saveWallets merged true true st).1 with localWallets := some merged },
          true)
  | none => (cloud, { st with localWallets := some cloud }, false)

/-- `handleSyncBalances` from `App.tsx` (the spec's `syncNow`): no-op on an
empty collection; fetch all balances (a chunk failure is caught and leaves
the store untouched), fold every wallet with the shared timestamp `nowISO`,
then persist the collection and the sync timestamp. -/
def handleSyncBalances (agg : List String → Except String (List (Bool × Nat)))
    (re rok : Bool) (currentWallets : List WalletData) (nowISO : String)
    (st : StoreState) : StoreState × List WalletData :=
  if currentWallets.isEmpty then (st, currentWallets)
  else
    match (fetchBalancesBatch agg (currentWallets.map (fun w => w.address))).1 with
    | Except.error _ => (st, currentWallets)
    | Except.ok m =>
      let updated := currentWallets.map (fun w =>
        updateWalletHistory w ((mapGet m w.address).getD w.currentBalance) nowISO)
      let st1 := (saveWallets updated re rok st).1
      let st2 := setLastUpdateTime nowISO re rok st1
      (st2, updated)

/-- The startup auto-refresh decision of `initData` in `App.tsx`: `last` is
the stored last-sync instant in epoch milliseconds (`none` models a missing
or empty stored value, which is falsy in JS); the sync is triggered iff
`last` exists and `|now - last| / 36e5 > 24`. -/
def autoSyncTriggered (last : Option Int) (now : Int) : Bool :=
  match last with
  | none => false
  | some l => decide ((24 : ℚ) < ((now - l).natAbs : ℚ) / 3600000)

/-- JS `Map.set` keyed by `WalletData.address` (insertion-ordered), as used
by the dedup map of `handleUploadAddresses`. -/
def wmapSet : List WalletData → WalletData → List WalletData
  | [], w => [w]
  | x :: rest, w => if x.address = w.address then w :: rest else x :: wmapSet rest w

/-- One new record built by `handleUploadAddresses` for the entry
`(address, label)` at index `idx`: balance from the fetched map (`0` when
absent), a generated label when the given one is empty, and a single-entry
history seeded from the observation. -/
def buildNewWallet (existingCount idx blk : Nat) (balances : List (String × ℚ))
    (now : String) (e : String × String) : WalletData :=
  let bal := (mapGet balances e.1).getD 0
  { address := e.1
    owner := if e.2 = "" then "Wallet #" ++ toString (existingCount + idx + 1) else e.2
    initialBalance := bal
    initialBlock := blk
    currentBalance := bal
    lastUpdated := now
    history := [⟨now, bal⟩] }

/-- `handleUploadAddresses` from `App.tsx` (the spec's `registerAddresses`),
success path: build a record per entry, then dedup by address through a JS
`Map`, existing records inserted first and new records second, so a re-upload
replaces the record of an existing address. -/
def registerAddresses (wallets : List WalletData) (entries : List (String × String))
    (blk : Nat) (balances : List (String × ℚ)) (now : String) : List WalletData :=
  let newWallets := entries.enum.map
    (fun p => buildNewWallet wallets.length p.1 blk balances now p.2)
  (wallets ++ newWallets).foldl wmapSet []

/-- Modelled from the spec: the AdminPanel bulk-input parser (its source file
is not part of this repository snapshot; only its caller
`handleUploadAddresses` is) produces, per §6 and §3 of the spec, entries
whose address is a lowercase-normalized `0x`-prefixed 40-hex-digit string.
This predicate captures that guarantee about parser outputs. -/
def isLowerHexAddr (s : String) : Bool :=
  s.data.length = 42 &&
    (match s.data with
     | '0' :: 'x' :: rest => rest.all (fun c => c.isDigit || ('a' ≤ c && c ≤ 'f'))
     | _ => false)

/-- Concrete aggregator oracle for the spec's decode scenario: the sub-call
for `"0xaaa"` succeeds with raw value `10^18`, every other sub-call fails. -/
def aggW (c : List String) : Except String (List (Bool × Nat)) :=
  Except.ok (c.map (fun a => if a = "0xaaa" then (true, 10 ^ 18) else (false, 0)))

/-- Concrete 250-address input for the chunking scenario. -/
def addrs250 : List String := (List.range 250).map (fun i => "a" ++ toString i)

/-- Concrete aggregator oracle where exactly the sub-call for `"a0"` fails. -/
def agg250 (c : List String) : Except String (List (Bool × Nat)) :=
  Except.ok (c.map (fun a => (a ≠ "a0", 0)))

/-- Concrete aggregator oracle whose every call throws. -/
def aggErr (_ : List String) : Except String (List (Bool × Nat)) :=
  Except.error "transport failure"

/-- Concrete remote-only record A for the reconciliation scenario. -/
def wA : WalletData :=
  ⟨"0xaaaaaaaaaaaaaaaaaaaaaaaaaaaaaaaaaaaaaaaa", "A", 0, 0, 10,
   "2024-01-01T00:00:00.000Z", []⟩

/-- Concrete record B, remote version (authoritative on conflict). -/
def wB : WalletData :=
  ⟨"0xbbbbbbbbbbbbbbbbbbbbbbbbbbbbbbbbbbbbbbbb", "B", 0, 0, 20,
   "2024-01-02T00:00:00.000Z", []⟩

/-- Concrete record B, stale local version (uppercase address, to exercise
the case-insensitive comparison). -/
def wB2 : WalletData :=
  ⟨"0xBBBBBBBBBBBBBBBBBBBBBBBBBBBBBBBBBBBBBBBB", "B stale", 0, 0, 5,
   "2023-12-01T00:00:00.000Z", []⟩

/-- Concrete local-only record C for the reconciliation scenario. -/
def wC : WalletData :=
  ⟨"0xcccccccccccccccccccccccccccccccccccccccc", "C", 0, 0, 30,
   "2024-01-03T00:00:00.000Z", []⟩

/-- An empty store state for witnesses. -/
def st0 : StoreState := ⟨[], none, none, none⟩

/-- A concrete lowercase-normalized 40-hex address. -/
def addrD : String := "0xdddddddddddddddddddddddddddddddddddddddd"

/-- The collection obtained by registering `addrD` with label `"A"` into an
empty collection. -/
def regA : List WalletData :=
  registerAddresses [] [(addrD, "A")] 0 [] "2024-01-01T00:00:00.000Z"

-- ### String lemmas

theorem isPrefixOf_iff_take (p l : List Char) :
    p.isPrefixOf l = true ↔ l.take p.length = p := by
  induction p generalizing l with
  | nil => simp [List.isPrefixOf]
  | cons a as ih =>
    cases l with
    | nil => simp [List.isPrefixOf]
    | cons b bs =>
      simp only [List.isPrefixOf, Bool.and_eq_true, beq_iff_eq, List.length_cons,
        List.take_succ_cons, List.cons.injEq, ih]
      tauto

theorem takeWhile_isPrefixOf (l : List Char) (p : Char → Bool) :
    (l.takeWhile p).isPrefixOf l = true := by
  induction l with
  | nil => rfl
  | cons a l ih =>
    simp only [List.takeWhile]
    cases h : p a <;> simp [List.isPrefixOf, ih]

theorem takeWhile_eq_take_length (l : List Char) (p : Char → Bool) :
    l.takeWhile p = l.take (l.takeWhile p).length := by
  induction l with
  | nil => rfl
  | cons a l ih =>
    simp only [List.takeWhile]
    cases h : p a
    · simp
    · simp only [List.length_cons, List.take_succ_cons, List.cons.injEq, true_and]
      exact ih

theorem calDate_data (s : String) :
    (calDate s).data = s.data.takeWhile (fun c => c ≠ 'T') := rfl

theorem strStartsWith_calDate (s : String) : strStartsWith s (calDate s) = true :=
  takeWhile_isPrefixOf s.data _

theorem strStartsWith_iff_calDate_eq (s t : String)
    (h : (calDate s).length = (calDate t).length) :
    strStartsWith s (calDate t) = true ↔ calDate s = calDate t := by
  constructor
  · intro hp
    have hp' : s.data.take (calDate t).data.length = (calDate t).data :=
      (isPrefixOf_iff_take _ _).mp hp
    have hs : (calDate s).data = s.data.take (calDate s).data.length := by
      rw [calDate_data]
      exact takeWhile_eq_take_length s.data _
    have hlen : (calDate s).data.length = (calDate t).data.length := h
    have : (calDate s).data = (calDate t).data := by rw [hs, hlen, hp']
    exact String.ext this
  · intro he
    rw [← he]
    exact strStartsWith_calDate s

-- ### History ledger lemmas

theorem mem_of_getLast?_eq {α : Type} {l : List α} {e : α}
    (h : l.getLast? = some e) : e ∈ l := by
  have hx : e ∈ l.getLast? := by rw [h]; rfl
  obtain ⟨hne, heq⟩ := List.mem_getLast?_eq_getLast hx
  rw [heq]
  exact List.getLast_mem hne

theorem getLast?_ne_nil {α : Type} {l : List α} {e : α}
    (h : l.getLast? = some e) : l ≠ [] := by
  intro hc
  subst hc
  simp at h

theorem tail_append_singleton {α : Type} (X : List α) (a : α) (h : X ≠ []) :
    (X ++ [a]).tail = X.tail ++ [a] := by
  cases X with
  | nil => exact absurd rfl h
  | cons b bs => rfl

theorem fold_currentBalance (w : WalletData) (b : ℚ) (t : String) :
    (updateWalletHistory w b t).currentBalance = b := rfl

theorem fold_lastUpdated (w : WalletData) (b : ℚ) (t : String) :
    (updateWalletHistory w b t).lastUpdated = t := rfl

theorem fold_address (w : WalletData) (b : ℚ) (t : String) :
    (updateWalletHistory w b t).address = w.address := rfl

theorem fold_owner (w : WalletData) (b : ℚ) (t : String) :
    (updateWalletHistory w b t).owner = w.owner := rfl

theorem fold_initialBalance (w : WalletData) (b : ℚ) (t : String) :
    (updateWalletHistory w b t).initialBalance = w.initialBalance := rfl

theorem fold_initialBlock (w : WalletData) (b : ℚ) (t : String) :
    (updateWalletHistory w b t).initialBlock = w.initialBlock := rfl

theorem fold_history_replace (w : WalletData) (b : ℚ) (t : String) {e : HistoricalRecord}
    (hl : w.history.getLast? = some e) (hs : strStartsWith e.date (calDate t) = true) :
    (updateWalletHistory w b t).history =
      if 7 < (w.history.dropLast ++ [(⟨t, b⟩ : HistoricalRecord)]).length then
        (w.history.dropLast ++ [(⟨t, b⟩ : HistoricalRecord)]).tail
      else w.history.dropLast ++ [(⟨t, b⟩ : HistoricalRecord)] := by
  simp only [updateWalletHistory, hl, hs, if_true]

theorem fold_history_append_none (w : WalletData) (b : ℚ) (t : String)
    (hl : w.history.getLast? = none) :
    (updateWalletHistory w b t).history =
      if 7 < (w.history ++ [(⟨t, b⟩ : HistoricalRecord)]).length then
        (w.history ++ [(⟨t, b⟩ : HistoricalRecord)]).tail
      else w.history ++ [(⟨t, b⟩ : HistoricalRecord)] := by
  simp only [updateWalletHistory, hl]

theorem fold_history_append_some (w : WalletData) (b : ℚ) (t : String) {e : HistoricalRecord}
    (hl : w.history.getLast? = some e) (hs : strStartsWith e.date (calDate t) = false) :
    (updateWalletHistory w b t).history =
      if 7 < (w.history ++ [(⟨t, b⟩ : HistoricalRecord)]).length then
        (w.history ++ [(⟨t, b⟩ : HistoricalRecord)]).tail
      else w.history ++ [(⟨t, b⟩ : HistoricalRecord)] := by
  simp only [updateWalletHistory, hl, hs, Bool.false_eq_true, if_false]

/-- The folded history always ends with the new observation. -/
theorem fold_history_concat (w : WalletData) (b : ℚ) (t : String) :
    ∃ X, (updateWalletHistory w b t).history = X ++ [(⟨t, b⟩ : HistoricalRecord)] := by
  cases hl : w.history.getLast? with
  | none =>
    rw [fold_history_append_none w b t hl]
    by_cases h7 : 7 < (w.history ++ [(⟨t, b⟩ : HistoricalRecord)]).length
    · have hne : w.history ≠ [] := by
        intro hc
        rw [hc] at h7
        simp at h7
      rw [if_pos h7, tail_append_singleton _ _ hne]
      exact ⟨w.history.tail, rfl⟩
    · rw [if_neg h7]
      exact ⟨w.history, rfl⟩
  | some e =>
    by_cases hs : strStartsWith e.date (calDate t) = true
    · rw [fold_history_replace w b t hl hs]
      by_cases h7 : 7 < (w.history.dropLast ++ [(⟨t, b⟩ : HistoricalRecord)]).length
      · have hne : w.history.dropLast ≠ [] := by
          intro hc
          rw [hc] at h7
          simp at h7
        rw [if_pos h7, tail_append_singleton _ _ hne]
        exact ⟨w.history.dropLast.tail, rfl⟩
      · rw [if_neg h7]
        exact ⟨w.history.dropLast, rfl⟩
    · rw [fold_history_append_some w b t hl (by simpa using hs)]
      by_cases h7 : 7 < (w.history ++ [(⟨t, b⟩ : HistoricalRecord)]).length
      · have hne : w.history ≠ [] := by
          intro hc
          rw [hc] at h7
          simp at h7
        rw [if_pos h7, tail_append_singleton _ _ hne]
        exact ⟨w.history.tail, rfl⟩
      · rw [if_neg h7]
        exact ⟨w.history, rfl⟩

/-- The 7-entry cap is preserved by the fold. -/
theorem fold_length_le (w : WalletData) (b : ℚ) (t : String)
    (h : w.history.length ≤ 7) :
    (updateWalletHistory w b t).history.length ≤ 7 := by
  cases hl : w.history.getLast? with
  | none =>
    rw [fold_history_append_none w b t hl]
    by_cases h7 : 7 < (w.history ++ [(⟨t, b⟩ : HistoricalRecord)]).length
    · rw [if_pos h7]
      simp only [List.length_tail, List.length_append, List.length_cons,
        List.length_nil] at h7 ⊢
      omega
    · rw [if_neg h7]
      simp only [List.length_append, List.length_cons, List.length_nil] at h7 ⊢
      omega
  | some e =>
    have hne : w.history ≠ [] := getLast?_ne_nil hl
    have hpos : 0 < w.history.length := List.length_pos.mpr hne
    by_cases hs : strStartsWith e.date (calDate t) = true
    · rw [fold_history_replace w b t hl hs]
      by_cases h7 : 7 < (w.history.dropLast ++ [(⟨t, b⟩ : HistoricalRecord)]).length
      · rw [if_pos h7]
        simp only [List.length_tail, List.length_append, List.length_dropLast,
          List.length_cons, List.length_nil] at h7 ⊢
        omega
      · rw [if_neg h7]
        simp only [List.length_append, List.length_dropLast, List.length_cons,
          List.length_nil] at h7 ⊢
        omega
    · rw [fold_history_append_some w b t hl (by simpa using hs)]
      by_cases h7 : 7 < (w.history ++ [(⟨t, b⟩ : HistoricalRecord)]).length
      · rw [if_pos h7]
        simp only [List.length_tail, List.length_append, List.length_cons,
          List.length_nil] at h7 ⊢
        omega
      · rw [if_neg h7]
        simp only [List.length_append, List.length_cons, List.length_nil] at h7 ⊢
        omega

theorem walletExt {x y : WalletData} (h1 : x.address = y.address) (h2 : x.owner = y.owner)
    (h3 : x.initialBalance = y.initialBalance) (h4 : x.initialBlock = y.initialBlock)
    (h5 : x.currentBalance = y.currentBalance) (h6 : x.lastUpdated = y.lastUpdated)
    (h7 : x.history = y.history) : x = y := by
  cases x
  cases y
  simp_all

/-- C10: folding the same observation (same balance `b`, same timestamp `t`)
a second time returns the same record: `fold (fold w b t) b t = fold w b t`
for every wallet record satisfying the documented `history.length <= 7`
invariant. -/
theorem updateWalletHistory_idempotent (w : WalletData) (b : ℚ) (t : String)
    (h : w.history.length ≤ 7) :
    updateWalletHistory (updateWalletHistory w b t) b t = updateWalletHistory w b t := by
  obtain ⟨X, hX⟩ := fold_history_concat w b t
  have hlen2 : (updateWalletHistory w b t).history.length ≤ 7 := fold_length_le w b t h
  have hgl : (updateWalletHistory w b t).history.getLast? =
      some (⟨t, b⟩ : HistoricalRecord) := by
    rw [hX]
    exact List.getLast?_concat _
  have hsw : strStartsWith (HistoricalRecord.mk t b).date (calDate t) = true :=
    strStartsWith_calDate t
  have hh : (updateWalletHistory (updateWalletHistory w b t) b t).history =
      (updateWalletHistory w b t).history := by
    rw [fold_history_replace _ b t hgl hsw]
    have hdl : (updateWalletHistory w b t).history.dropLast ++
        [(⟨t, b⟩ : HistoricalRecord)] = (updateWalletHistory w b t).history := by
      rw [hX, List.dropLast_concat]
    rw [hdl, if_neg (by omega)]
  exact walletExt (fold_address _ b t) (fold_owner _ b t) (fold_initialBalance _ b t)
    (fold_initialBlock _ b t)
    ((fold_currentBalance _ b t).trans (fold_currentBalance w b t).symm)
    ((fold_lastUpdated _ b t).trans (fold_lastUpdated w b t).symm)
    hh

/-- C10 witness: the idempotence theorem applied to the concrete one-entry
wallet `w1`. -/
theorem updateWalletHistory_idempotent_witness :
    w1.history.length ≤ 7 ∧
    updateWalletHistory (updateWalletHistory w1 2 "2024-01-01T09:00:00.000Z") 2
        "2024-01-01T09:00:00.000Z" =
      updateWalletHistory w1 2 "2024-01-01T09:00:00.000Z" :=
  ⟨by decide, updateWalletHistory_idempotent w1 2 "2024-01-01T09:00:00.000Z" (by decide)⟩

/-- C3 counterexample: for the concrete wallet `w7`, whose history already
holds 7 entries, and an observation on a new calendar day, `fold` does not
simply append the observation: the oldest entry is also evicted, so the
resulting history differs from `w7.history ++ [obs]`. -/
theorem updateWalletHistory_plain_append_fails :
    (updateWalletHistory w7 8 "2024-01-08T08:00:00.000Z").history ≠
      w7.history ++ [⟨"2024-01-08T08:00:00.000Z", 8⟩] := by decide

/-- C3 (amended): for every wallet record within the 7-entry invariant and
calendar dates of uniform length, `fold` replaces the last history entry when
the last entry's calendar date equals the observation's calendar date (length
unchanged) and otherwise appends the observation — except that when the
append would exceed 7 entries the oldest entry is also removed; the result
carries `currentBalance = b`, `lastUpdated = t`, and all other fields of the
input record unchanged (the input is not mutated). -/
theorem updateWalletHistory_branch_spec (w : WalletData) (b : ℚ) (t : String)
    (hlen : w.history.length ≤ 7)
    (hcal : ∀ e ∈ w.history, (calDate e.date).length = (calDate t).length) :
    (updateWalletHistory w b t).currentBalance = b ∧
    (updateWalletHistory w b t).lastUpdated = t ∧
    (updateWalletHistory w b t).address = w.address ∧
    (updateWalletHistory w b t).owner = w.owner ∧
    (updateWalletHistory w b t).initialBalance = w.initialBalance ∧
    (updateWalletHistory w b t).initialBlock = w.initialBlock ∧
    (∀ e, w.history.getLast? = some e →
      (calDate e.date = calDate t →
        (updateWalletHistory w b t).history =
          w.history.dropLast ++ [(⟨t, b⟩ : HistoricalRecord)] ∧
        (updateWalletHistory w b t).history.length = w.history.length) ∧
      (calDate e.date ≠ calDate t →
        (w.history.length ≤ 6 →
          (updateWalletHistory w b t).history =
            w.history ++ [(⟨t, b⟩ : HistoricalRecord)]) ∧
        (w.history.length = 7 →
          (updateWalletHistory w b t).history =
            w.history.tail ++ [(⟨t, b⟩ : HistoricalRecord)]))) ∧
    (w.history = [] →
      (updateWalletHistory w b t).history = [(⟨t, b⟩ : HistoricalRecord)]) := by
  refine ⟨fold_currentBalance w b t, fold_lastUpdated w b t, fold_address w b t,
    fold_owner w b t, fold_initialBalance w b t, fold_initialBlock w b t, ?_, ?_⟩
  · intro e hl
    have hne : w.history ≠ [] := getLast?_ne_nil hl
    have hpos : 0 < w.history.length := List.length_pos.mpr hne
    have hiff := strStartsWith_iff_calDate_eq e.date t (hcal e (mem_of_getLast?_eq hl))
    constructor
    · intro heq
      have hs : strStartsWith e.date (calDate t) = true := hiff.mpr heq
      have hnotrim : ¬ 7 < (w.history.dropLast ++ [(⟨t, b⟩ : HistoricalRecord)]).length := by
        simp only [List.length_append, List.length_dropLast, List.length_cons,
          List.length_nil]
        omega
      rw [fold_history_replace w b t hl hs, if_neg hnotrim]
      refine ⟨rfl, ?_⟩
      simp only [List.length_append, List.length_dropLast, List.length_cons,
        List.length_nil]
      omega
    · intro hneq
      have hs : strStartsWith e.date (calDate t) = false := by
        cases hb : strStartsWith e.date (calDate t) with
        | false => rfl
        | true => exact absurd (hiff.mp hb) hneq
      rw [fold_history_append_some w b t hl hs]
      constructor
      · intro h6
        have hnotrim : ¬ 7 < (w.history ++ [(⟨t, b⟩ : HistoricalRecord)]).length := by
          simp only [List.length_append, List.length_cons, List.length_nil]
          omega
        rw [if_neg hnotrim]
      · intro h7
        have htrim : 7 < (w.history ++ [(⟨t, b⟩ : HistoricalRecord)]).length := by
          simp only [List.length_append, List.length_cons, List.length_nil]
          omega
        rw [if_pos htrim, tail_append_singleton _ _ hne]
  · intro h0
    have hl : w.history.getLast? = none := by rw [h0]; rfl
    rw [fold_history_append_none w b t hl, h0]
    simp

/-- C3 witness: the amended branch theorem applied to the concrete one-entry
wallet `w1` with a same-day observation (replace branch). -/
theorem updateWalletHistory_branch_spec_witness :
    w1.history.length ≤ 7 ∧
    (∀ e ∈ w1.history,
      (calDate e.date).length = (calDate "2024-01-01T09:00:00.000Z").length) ∧
    (updateWalletHistory w1 2 "2024-01-01T09:00:00.000Z").currentBalance = 2 ∧
    (updateWalletHistory w1 2 "2024-01-01T09:00:00.000Z").history =
      w1.history.dropLast ++ [⟨"2024-01-01T09:00:00.000Z", 2⟩] := by
  refine ⟨by decide, by decide, ?_, ?_⟩
  · exact (updateWalletHistory_branch_spec w1 2 "2024-01-01T09:00:00.000Z"
      (by decide) (by decide)).1
  · exact (((updateWalletHistory_branch_spec w1 2 "2024-01-01T09:00:00.000Z"
      (by decide) (by decide)).2.2.2.2.2.2.1
      ⟨"2024-01-01T08:00:00.000Z", 1⟩ (by decide)).1 (by decide)).1

/-- C4: the fold preserves the 7-entry cap, and for a full (7-entry) history
and an observation on a genuinely new calendar day it appends the observation
and evicts the oldest (first) entry: the resulting length is exactly 7 and
the originally-oldest entry is absent from the result. -/
theorem updateWalletHistory_capacity (w : WalletData) (b : ℚ) (t : String) :
    (w.history.length ≤ 7 → (updateWalletHistory w b t).history.length ≤ 7) ∧
    (w.history.length = 7 →
     (∀ e ∈ w.history, calDate e.date ≠ calDate t) →
     (∀ e ∈ w.history, (calDate e.date).length = (calDate t).length) →
     ((w.history.map (fun e => calDate e.date)).Nodup →
       (updateWalletHistory w b t).history =
         w.history.tail ++ [(⟨t, b⟩ : HistoricalRecord)] ∧
       (updateWalletHistory w b t).history.length = 7 ∧
       (∀ e, w.history.head? = some e →
         e ∉ (updateWalletHistory w b t).history))) := by
  refine ⟨fold_length_le w b t, ?_⟩
  intro h7 hnew hcal hnd
  have hne : w.history ≠ [] := by
    intro hc
    rw [hc] at h7
    simp at h7
  obtain ⟨e, hl⟩ : ∃ e, w.history.getLast? = some e := by
    cases hx : w.history.getLast? with
    | none => exact absurd (List.getLast?_eq_none_iff.mp hx) hne
    | some e => exact ⟨e, rfl⟩
  have hemem : e ∈ w.history := mem_of_getLast?_eq hl
  have hs : strStartsWith e.date (calDate t) = false := by
    cases hb : strStartsWith e.date (calDate t) with
    | false => rfl
    | true =>
      exact absurd ((strStartsWith_iff_calDate_eq e.date t (hcal e hemem)).mp hb)
        (hnew e hemem)
  have heq : (updateWalletHistory w b t).history =
      w.history.tail ++ [(⟨t, b⟩ : HistoricalRecord)] := by
    rw [fold_history_append_some w b t hl hs]
    have htrim : 7 < (w.history ++ [(⟨t, b⟩ : HistoricalRecord)]).length := by
      simp only [List.length_append, List.length_cons, List.length_nil]
      omega
    rw [if_pos htrim, tail_append_singleton _ _ hne]
  refine ⟨heq, ?_, ?_⟩
  · rw [heq]
    simp only [List.length_append, List.length_tail, List.length_cons, List.length_nil]
    omega
  · intro e0 hh hmem
    have he0 : w.history = e0 :: w.history.tail := by
      cases hx : w.history with
      | nil => rw [hx] at hh; simp at hh
      | cons a l =>
        rw [hx] at hh
        simp only [List.head?_cons, Option.some.injEq] at hh
        rw [← hh]
        rfl
    rw [heq] at hmem
    rcases List.mem_append.mp hmem with hmem | hmem
    · have hmap : calDate e0.date ∈ w.history.tail.map (fun e => calDate e.date) :=
        List.mem_map_of_mem _ hmem
      have hnd' := hnd
      rw [he0] at hnd'
      simp only [List.map_cons, List.nodup_cons] at hnd'
      exact hnd'.1 hmap
    · simp only [List.mem_singleton] at hmem
      have hdate : calDate e0.date = calDate t := by rw [hmem]
      exact hnew e0 (by rw [he0]; exact List.mem_cons_self _ _) hdate

/-- C4 witness: the capacity theorem applied to the concrete full wallet `w7`
with a new-day observation: the length stays 7 and the oldest entry is gone. -/
theorem updateWalletHistory_capacity_witness :
    w7.history.length = 7 ∧
    (∀ e ∈ w7.history, calDate e.date ≠ calDate "2024-01-08T08:00:00.000Z") ∧
    ((w7.history.map (fun e => calDate e.date)).Nodup) ∧
    (updateWalletHistory w7 8 "2024-01-08T08:00:00.000Z").history.length = 7 ∧
    (⟨"2024-01-01T08:00:00.000Z", 1⟩ : HistoricalRecord) ∉
      (updateWalletHistory w7 8 "2024-01-08T08:00:00.000Z").history := by
  have h := (updateWalletHistory_capacity w7 8 "2024-01-08T08:00:00.000Z").2
    (by decide) (by decide) (by decide) (by decide)
  exact ⟨by decide, by decide, by decide, h.2.1, h.2.2 _ (by decide)⟩

-- ### Chunking lemmas

theorem chunks100F_fuel : ∀ (f g : Nat) (l : List String), l.length ≤ f → l.length ≤ g →
    chunks100F f l = chunks100F g l := by
  intro f
  induction f with
  | zero =>
    intro g l hf _
    have : l = [] := List.eq_nil_of_length_eq_zero (by omega)
    subst this
    cases g <;> rfl
  | succ f ih =>
    intro g l hf hg
    cases l with
    | nil => cases g <;> rfl
    | cons a l' =>
      cases g with
      | zero => simp at hg
      | succ g' =>
        simp only [chunks100F]
        refine congrArg _ ?_
        apply ih
        · simp only [List.length_drop, List.length_cons] at hf ⊢
          omega
        · simp only [List.length_drop, List.length_cons] at hg ⊢
          omega

theorem chunks100_nil : chunks100 ([] : List String) = [] := rfl

theorem chunks100_cons (a : String) (l : List String) :
    chunks100 (a :: l) = (a :: l).take 100 :: chunks100 ((a :: l).drop 100) := by
  show chunks100F (l.length + 1) (a :: l) = _
  simp only [chunks100F]
  refine congrArg _ ?_
  apply chunks100F_fuel
  · simp only [List.length_drop, List.length_cons]
    omega
  · exact le_rfl

theorem chunks100_flatten (l : List String) : (chunks100 l).flatten = l := by
  have main : ∀ (n : Nat) (l : List String), l.length ≤ n → (chunks100 l).flatten = l := by
    intro n
    induction n with
    | zero =>
      intro l h
      have : l = [] := List.eq_nil_of_length_eq_zero (by omega)
      subst this
      rfl
    | succ n ih =>
      intro l h
      cases l with
      | nil => rfl
      | cons a l' =>
        rw [chunks100_cons]
        simp only [List.flatten_cons]
        rw [ih ((a :: l').drop 100)
          (by simp only [List.length_drop, List.length_cons] at h ⊢; omega)]
        exact List.take_append_drop 100 (a :: l')
  exact main l.length l le_rfl

theorem chunks100_length_le (l c : List String) (hc : c ∈ chunks100 l) :
    c.length ≤ 100 := by
  have main : ∀ (n : Nat) (l c : List String), l.length ≤ n → c ∈ chunks100 l →
      c.length ≤ 100 := by
    intro n
    induction n with
    | zero =>
      intro l c h hc
      have : l = [] := List.eq_nil_of_length_eq_zero (by omega)
      subst this
      simp [chunks100_nil] at hc
    | succ n ih =>
      intro l c h hc
      cases l with
      | nil => simp [chunks100_nil] at hc
      | cons a l' =>
        rw [chunks100_cons] at hc
        rcases List.mem_cons.mp hc with rfl | hc'
        · simp only [List.length_take]
          omega
        · exact ih ((a :: l').drop 100) c
            (by simp only [List.length_drop, List.length_cons] at h ⊢; omega) hc'
  exact main l.length l c le_rfl hc

theorem chunks100_250 (l : List String) (h : l.length = 250) :
    (chunks100 l).map List.length = [100, 100, 50] ∧ (chunks100 l).length = 3 := by
  obtain ⟨a, l1, rfl⟩ : ∃ a l1, l = a :: l1 := by
    cases l with
    | nil => simp at h
    | cons a l1 => exact ⟨a, l1, rfl⟩
  rw [chunks100_cons]
  have h1 : ((a :: l1).drop 100).length = 150 := by
    simp only [List.length_drop, List.length_cons] at h ⊢
    omega
  obtain ⟨b, l2, h2⟩ : ∃ b l2, (a :: l1).drop 100 = b :: l2 := by
    cases hx : (a :: l1).drop 100 with
    | nil => rw [hx] at h1; simp at h1
    | cons b l2 => exact ⟨b, l2, rfl⟩
  rw [h2, chunks100_cons]
  have h2len : (b :: l2).length = 150 := by rw [← h2]; exact h1
  have h3 : ((b :: l2).drop 100).length = 50 := by
    simp only [List.length_drop] at h2len ⊢
    omega
  obtain ⟨c, l3, h4⟩ : ∃ c l3, (b :: l2).drop 100 = c :: l3 := by
    cases hx : (b :: l2).drop 100 with
    | nil => rw [hx] at h3; simp at h3
    | cons c l3 => exact ⟨c, l3, rfl⟩
  rw [h4, chunks100_cons]
  have h4len : (c :: l3).length = 50 := by rw [← h4]; exact h3
  have h5 : ((c :: l3).drop 100).length = 0 := by
    simp only [List.length_drop] at h4len ⊢
    omega
  have h6 : (c :: l3).drop 100 = [] := List.eq_nil_of_length_eq_zero h5
  rw [h6, chunks100_nil]
  constructor
  · simp only [List.map_cons, List.map_nil, List.length_take]
    rw [h, h2len, h4len]
    norm_num
  · simp

-- ### Balance-map lemmas

theorem mem_keys_mapSet (m : List (String × ℚ)) (k : String) (v : ℚ) (a : String) :
    a ∈ (mapSet m k v).map Prod.fst ↔ a ∈ m.map Prod.fst ∨ a = k := by
  induction m with
  | nil => simp [mapSet]
  | cons p rest ih =>
    simp only [mapSet]
    by_cases hp : p.1 = k
    · rw [if_pos hp]
      simp only [List.map_cons, List.mem_cons]
      constructor
      · rintro (hmem | hmem)
        · exact Or.inr hmem
        · exact Or.inl (Or.inr hmem)
      · rintro (hmem | hmem)
        · rcases hmem with hmem | hmem
          · exact Or.inl (hmem.trans hp)
          · exact Or.inr hmem
        · exact Or.inl hmem
    · rw [if_neg hp]
      simp only [List.map_cons, List.mem_cons, ih]
      tauto

theorem mapGet_isSome_iff (m : List (String × ℚ)) (a : String) :
    (mapGet m a).isSome = true ↔ a ∈ m.map Prod.fst := by
  induction m with
  | nil => simp [mapGet]
  | cons p rest ih =>
    by_cases hp : p.1 = a
    · simp [mapGet, hp]
    · simp only [mapGet, if_neg hp, List.map_cons, List.mem_cons, ih]
      constructor
      · intro hmem
        exact Or.inr hmem
      · rintro (hmem | hmem)
        · exact absurd hmem.symm hp
        · exact hmem

theorem mapSet_fresh (m : List (String × ℚ)) (k : String) (v : ℚ)
    (h : k ∉ m.map Prod.fst) : mapSet m k v = m ++ [(k, v)] := by
  induction m with
  | nil => rfl
  | cons p rest ih =>
    simp only [List.map_cons, List.mem_cons] at h
    push_neg at h
    simp only [mapSet]
    rw [if_neg (fun hc => h.1 hc.symm), ih h.2]
    rfl

theorem applyChunk_nil_left (m : List (String × ℚ)) (rs : List (Bool × Nat)) :
    applyChunk m [] rs = m := rfl

theorem applyChunk_cons (m : List (String × ℚ)) (a : String) (c : List String)
    (r : Bool × Nat) (rs : List (Bool × Nat)) :
    applyChunk m (a :: c) (r :: rs) =
      applyChunk (if r.1 then mapSet m a ((r.2 : ℚ) / 10 ^ 18) else mapSet m a 0) c rs := rfl

theorem mem_keys_applyChunk (c : List String) (rs : List (Bool × Nat))
    (m : List (String × ℚ)) (a : String) (hlen : rs.length = c.length) :
    a ∈ (applyChunk m c rs).map Prod.fst ↔ a ∈ m.map Prod.fst ∨ a ∈ c := by
  induction c generalizing rs m with
  | nil => simp [applyChunk_nil_left]
  | cons x c ih =>
    cases rs with
    | nil => simp at hlen
    | cons r rs' =>
      rw [applyChunk_cons]
      have hlen' : rs'.length = c.length := by simpa using hlen
      rw [ih rs' _ hlen']
      cases hr : r.1 <;>
        simp only [hr, if_true, if_false, Bool.false_eq_true, mem_keys_mapSet,
          List.mem_cons] <;> tauto

theorem applyChunk_fresh (c : List String) (rs : List (Bool × Nat))
    (m : List (String × ℚ)) (hlen : rs.length = c.length)
    (hfresh : ∀ x ∈ c, x ∉ m.map Prod.fst) (hnd : c.Nodup) :
    applyChunk m c rs = m ++ (c.zip rs).map
      (fun p => (p.1, if p.2.1 then (p.2.2 : ℚ) / 10 ^ 18 else 0)) := by
  induction c generalizing rs m with
  | nil => simp [applyChunk_nil_left]
  | cons x c ih =>
    cases rs with
    | nil => simp at hlen
    | cons r rs' =>
      rw [applyChunk_cons]
      have hx : x ∉ m.map Prod.fst := hfresh x (List.mem_cons_self x c)
      have hstep : (if r.1 then mapSet m x ((r.2 : ℚ) / 10 ^ 18) else mapSet m x 0) =
          m ++ [(x, if r.1 then (r.2 : ℚ) / 10 ^ 18 else 0)] := by
        cases hr : r.1 <;> simp [hr, mapSet_fresh m x _ hx]
      rw [hstep]
      have hnd' : c.Nodup := (List.nodup_cons.mp hnd).2
      have hfresh' : ∀ y ∈ c,
          y ∉ (m ++ [(x, if r.1 then (r.2 : ℚ) / 10 ^ 18 else 0)]).map Prod.fst := by
        intro y hy
        simp only [List.map_append, List.mem_append, List.map_cons, List.map_nil,
          List.mem_cons, List.not_mem_nil]
        rintro (hmem | hmem | hmem)
        · exact hfresh y (List.mem_cons_of_mem x hy) hmem
        · exact (List.nodup_cons.mp hnd).1 (hmem ▸ hy)
        · exact hmem
      rw [ih rs' _ (by simpa using hlen) hfresh' hnd']
      simp [List.append_assoc]

-- ### Chunk-loop lemmas

theorem runChunks_cons_ok (agg : List String → Except String (List (Bool × Nat)))
    (m : List (String × ℚ)) (c : List String) (rest : List (List String))
    (rs : List (Bool × Nat)) (hac : agg c = Except.ok rs) :
    runChunks agg m (c :: rest) =
      ((runChunks agg (applyChunk m c rs) rest).1,
        c :: (runChunks agg (applyChunk m c rs) rest).2) := by
  simp only [runChunks, hac]

theorem runChunks_cons_error (agg : List String → Except String (List (Bool × Nat)))
    (m : List (String × ℚ)) (c : List String) (rest : List (List String))
    (e : String) (hac : agg c = Except.error e) :
    runChunks agg m (c :: rest) = (Except.error e, [c]) := by
  simp only [runChunks, hac]

theorem runChunks_error (agg : List String → Except String (List (Bool × Nat)))
    (cs : List (List String)) (m : List (String × ℚ))
    (h : ∃ c ∈ cs, ∃ e, agg c = Except.error e) :
    ∃ e, (runChunks agg m cs).1 = Except.error e := by
  induction cs generalizing m with
  | nil =>
    obtain ⟨c, hc, _⟩ := h
    simp at hc
  | cons c rest ih =>
    cases hac : agg c with
    | error e => exact ⟨e, by rw [runChunks_cons_error agg m c rest e hac]⟩
    | ok rs =>
      obtain ⟨c', hc', e', he'⟩ := h
      rcases List.mem_cons.mp hc' with rfl | hcr
      · rw [hac] at he'
        simp at he'
      · obtain ⟨e, he⟩ := ih (applyChunk m c rs) ⟨c', hcr, e', he'⟩
        exact ⟨e, by rw [runChunks_cons_ok agg m c rest rs hac]; exact he⟩

theorem runChunks_ok_calls (agg : List String → Except String (List (Bool × Nat)))
    (cs : List (List String)) (m : List (String × ℚ))
    (hok : ∀ c ∈ cs, ∃ rs, agg c = Except.ok rs) :
    (runChunks agg m cs).2 = cs := by
  induction cs generalizing m with
  | nil => rfl
  | cons c rest ih =>
    obtain ⟨rs, hac⟩ := hok c (List.mem_cons_self c rest)
    rw [runChunks_cons_ok agg m c rest rs hac]
    exact congrArg (List.cons c)
      (ih (applyChunk m c rs) (fun c' hc' => hok c' (List.mem_cons_of_mem c hc')))

theorem runChunks_ok_of_ok (agg : List String → Except String (List (Bool × Nat)))
    (cs : List (List String)) (m m' : List (String × ℚ))
    (h : (runChunks agg m cs).1 = Except.ok m') :
    ∀ c ∈ cs, ∃ rs, agg c = Except.ok rs := by
  induction cs generalizing m with
  | nil =>
    intro c hc
    simp at hc
  | cons c rest ih =>
    cases hac : agg c with
    | error e =>
      rw [runChunks_cons_error agg m c rest e hac] at h
      simp at h
    | ok rs =>
      rw [runChunks_cons_ok agg m c rest rs hac] at h
      intro c' hc'
      rcases List.mem_cons.mp hc' with rfl | hcr
      · exact ⟨rs, hac⟩
      · exact ih (applyChunk m c rs) h c' hcr

theorem runChunks_ok_keys (agg : List String → Except String (List (Bool × Nat)))
    (cs : List (List String)) (m m' : List (String × ℚ)) (a : String)
    (hlen : ∀ c rs, agg c = Except.ok rs → rs.length = c.length)
    (h : (runChunks agg m cs).1 = Except.ok m') :
    a ∈ m'.map Prod.fst ↔ a ∈ m.map Prod.fst ∨ a ∈ cs.flatten := by
  induction cs generalizing m with
  | nil =>
    simp only [runChunks] at h
    injection h with h2
    subst h2
    simp
  | cons c rest ih =>
    cases hac : agg c with
    | error e =>
      rw [runChunks_cons_error agg m c rest e hac] at h
      simp at h
    | ok rs =>
      rw [runChunks_cons_ok agg m c rest rs hac] at h
      rw [ih (applyChunk m c rs) h, mem_keys_applyChunk c rs m a (hlen c rs hac)]
      simp only [List.flatten_cons, List.mem_append]
      tauto

theorem runChunks_ok_eq (agg : List String → Except String (List (Bool × Nat)))
    (cs : List (List String)) (m : List (String × ℚ))
    (hok : ∀ c ∈ cs, ∃ rs, agg c = Except.ok rs)
    (hlen : ∀ c rs, agg c = Except.ok rs → rs.length = c.length)
    (hnd : cs.flatten.Nodup)
    (hfresh : ∀ a ∈ cs.flatten, a ∉ m.map Prod.fst) :
    (runChunks agg m cs).1 =
      Except.ok (m ++ (cs.map (fun c => (c.zip (chunkResults agg c)).map
        (fun p => (p.1, if p.2.1 then (p.2.2 : ℚ) / 10 ^ 18 else 0)))).flatten) := by
  induction cs generalizing m with
  | nil => simp [runChunks]
  | cons c rest ih =>
    obtain ⟨rs, hac⟩ := hok c (List.mem_cons_self c rest)
    have hres : chunkResults agg c = rs := by simp [chunkResults, hac]
    have hlenc : rs.length = c.length := hlen c rs hac
    have hflat := hnd
    rw [List.flatten_cons] at hflat
    have hsplit := List.nodup_append.mp hflat
    have hndc : c.Nodup := hsplit.1
    have hfreshc : ∀ x ∈ c, x ∉ m.map Prod.fst := fun x hx =>
      hfresh x (by rw [List.flatten_cons]; exact List.mem_append_left _ hx)
    rw [runChunks_cons_ok agg m c rest rs hac]
    show (runChunks agg (applyChunk m c rs) rest).1 = _
    rw [applyChunk_fresh c rs m hlenc hfreshc hndc]
    have hkeyszc : ((c.zip rs).map
        (fun p => (p.1, if p.2.1 then (p.2.2 : ℚ) / 10 ^ 18 else 0))).map Prod.fst = c := by
      rw [List.map_map]
      have : (Prod.fst ∘ fun p : String × (Bool × Nat) =>
          (p.1, if p.2.1 then (p.2.2 : ℚ) / 10 ^ 18 else 0)) =
          (Prod.fst : String × (Bool × Nat) → String) := rfl
      rw [this]
      exact List.map_fst_zip c rs (by omega)
    have hfresh' : ∀ a ∈ rest.flatten,
        a ∉ ((m ++ (c.zip rs).map
          (fun p : String × (Bool × Nat) =>
            (p.1, if p.2.1 then (p.2.2 : ℚ) / 10 ^ 18 else 0))).map Prod.fst) := by
      intro a ha
      rw [List.map_append, hkeyszc]
      simp only [List.mem_append]
      rintro (hmem | hmem)
      · exact hfresh a (by rw [List.flatten_cons]; exact List.mem_append_right _ ha) hmem
      · exact hsplit.2.2 hmem ha
    rw [ih (m ++ (c.zip rs).map
        (fun p : String × (Bool × Nat) =>
          (p.1, if p.2.1 then (p.2.2 : ℚ) / 10 ^ 18 else 0)))
      (fun c' hc' => hok c' (List.mem_cons_of_mem c hc')) hsplit.2.1 hfresh']
    rw [List.map_cons, List.flatten_cons, hres, List.append_assoc]

theorem flatten_zip_chunks (agg : List String → Except String (List (Bool × Nat)))
    (cs : List (List String))
    (hlen : ∀ c rs, agg c = Except.ok rs → rs.length = c.length)
    (hok : ∀ c ∈ cs, ∃ rs, agg c = Except.ok rs) :
    (cs.map (fun c => c.zip (chunkResults agg c))).flatten =
      cs.flatten.zip ((cs.map (chunkResults agg)).flatten) := by
  induction cs with
  | nil => rfl
  | cons c rest ih =>
    obtain ⟨rs, hac⟩ := hok c (List.mem_cons_self c rest)
    have hres : chunkResults agg c = rs := by simp [chunkResults, hac]
    have hlenc : c.length = (chunkResults agg c).length := by
      rw [hres]
      exact (hlen c rs hac).symm
    simp only [List.map_cons, List.flatten_cons]
    rw [ih (fun c' hc' => hok c' (List.mem_cons_of_mem c hc')), List.zip_append hlenc]

/-- C6: a successful `fetchBalancesBatch` returns a mapping defined on
exactly the input addresses: the empty input yields an empty mapping with no
aggregator call issued; every input address is a key of the result; and, for
duplicate-free input, each successful sub-call's address maps to its decoded
18-decimal amount `raw / 10^18` while each failed sub-call's address maps to
`0` rather than being omitted. -/
theorem fetchBalancesBatch_success_spec
    (agg : List String → Except String (List (Bool × Nat))) (addrs : List String)
    (hlen : ∀ c rs, agg c = Except.ok rs → rs.length = c.length) :
    (addrs = [] → fetchBalancesBatch agg addrs = (Except.ok [], [])) ∧
    (∀ m, (fetchBalancesBatch agg addrs).1 = Except.ok m →
      (∀ a, (mapGet m a).isSome = true ↔ a ∈ addrs) ∧
      (addrs.Nodup →
        m = (addrs.zip (allResults agg addrs)).map
          (fun p => (p.1, if p.2.1 then (p.2.2 : ℚ) / 10 ^ 18 else 0)))) := by
  constructor
  · intro h
    subst h
    rfl
  · intro m hm
    cases haddr : addrs with
    | nil =>
      subst haddr
      have hm' : Except.ok ([] : List (String × ℚ)) = Except.ok m := hm
      injection hm' with h2
      subst h2
      constructor
      · intro a
        simp [mapGet]
      · intro _
        rfl
    | cons a0 l0 =>
      have hemp : addrs.isEmpty = false := by rw [haddr]; rfl
      have hfetch : (fetchBalancesBatch agg addrs).1 =
          (runChunks agg [] (chunks100 addrs)).1 := by
        simp [fetchBalancesBatch, hemp]
      rw [← haddr] at *
      rw [hfetch] at hm
      have hok := runChunks_ok_of_ok agg (chunks100 addrs) [] m hm
      constructor
      · intro a
        rw [mapGet_isSome_iff,
          runChunks_ok_keys agg (chunks100 addrs) [] m a hlen hm]
        simp [chunks100_flatten]
      · intro hnodup
        have hnd : (chunks100 addrs).flatten.Nodup := by
          rw [chunks100_flatten]
          exact hnodup
        have heq := runChunks_ok_eq agg (chunks100 addrs) [] hok hlen hnd
          (by intro a _; simp)
        rw [heq] at hm
        injection hm with hm2
        rw [← hm2, List.nil_append]
        have hmm : (chunks100 addrs).map (fun c => (c.zip (chunkResults agg c)).map
            (fun p => (p.1, if p.2.1 then (p.2.2 : ℚ) / 10 ^ 18 else 0))) =
            ((chunks100 addrs).map (fun c => c.zip (chunkResults agg c))).map
              (List.map (fun p => (p.1, if p.2.1 then (p.2.2 : ℚ) / 10 ^ 18 else 0))) := by
          rw [List.map_map]
          rfl
        rw [hmm, ← List.map_flatten, flatten_zip_chunks agg _ hlen hok, chunks100_flatten]
        rfl

/-- C7: `fetchBalancesBatch` splits its input into chunks of at most 100
addresses and issues exactly one aggregator call per chunk; a 250-address
input yields exactly 3 calls of sizes 100, 100 and 50; and a failing
sub-call inside a successfully returned chunk does not prevent the other
sub-calls from resolving — every input address still receives an entry. -/
theorem fetchBalancesBatch_chunking
    (agg : List String → Except String (List (Bool × Nat))) (addrs : List String)
    (hlen : ∀ c rs, agg c = Except.ok rs → rs.length = c.length)
    (hok : ∀ c ∈ chunks100 addrs, ∃ rs, agg c = Except.ok rs) :
    (fetchBalancesBatch agg addrs).2 = chunks100 addrs ∧
    (∀ c ∈ chunks100 addrs, c.length ≤ 100) ∧
    (addrs.length = 250 →
      (chunks100 addrs).map List.length = [100, 100, 50] ∧
      (chunks100 addrs).length = 3) ∧
    (∀ m, (fetchBalancesBatch agg addrs).1 = Except.ok m →
      ∀ a ∈ addrs, (mapGet m a).isSome = true) := by
  refine ⟨?_, fun c hc => chunks100_length_le addrs c hc,
    fun h => chunks100_250 addrs h, ?_⟩
  · cases haddr : addrs with
    | nil => rfl
    | cons a0 l0 =>
      have hemp : addrs.isEmpty = false := by rw [haddr]; rfl
      rw [← haddr] at *
      have : fetchBalancesBatch agg addrs = runChunks agg [] (chunks100 addrs) := by
        simp [fetchBalancesBatch, hemp]
      rw [this]
      exact runChunks_ok_calls agg (chunks100 addrs) [] hok
  · intro m hm a ha
    cases haddr : addrs with
    | nil =>
      subst haddr
      simp at ha
    | cons a0 l0 =>
      have hemp : addrs.isEmpty = false := by rw [haddr]; rfl
      rw [← haddr] at *
      have hfetch : (fetchBalancesBatch agg addrs).1 =
          (runChunks agg [] (chunks100 addrs)).1 := by
        simp [fetchBalancesBatch, hemp]
      rw [hfetch] at hm
      rw [mapGet_isSome_iff,
        runChunks_ok_keys agg (chunks100 addrs) [] m a hlen hm]
      right
      rw [chunks100_flatten]
      exact ha

-- ### Fetch claim witnesses

/-- C6 witness: the spec's decode scenario — two addresses, first sub-call
succeeds with raw value `10^18` (decoding to `1`), second fails (decoding to
`0`); the mapping is defined on both addresses with those values. -/
theorem fetchBalancesBatch_success_spec_witness :
    (∀ c rs, aggW c = Except.ok rs → rs.length = c.length) ∧
    (["0xaaa", "0xbbb"] : List String).Nodup ∧
    (∀ m, (fetchBalancesBatch aggW ["0xaaa", "0xbbb"]).1 = Except.ok m →
      mapGet m "0xaaa" = some 1 ∧ mapGet m "0xbbb" = some 0) := by
  have hlen : ∀ c rs, aggW c = Except.ok rs → rs.length = c.length := by
    intro c rs h
    simp only [aggW] at h
    injection h with h2
    rw [← h2]
    simp
  refine ⟨hlen, by decide, ?_⟩
  intro m hm
  have hval := ((fetchBalancesBatch_success_spec aggW ["0xaaa", "0xbbb"] hlen).2 m hm).2
    (by decide)
  have hall : allResults aggW ["0xaaa", "0xbbb"] =
      [(true, 10 ^ 18), (false, 0)] := by decide
  rw [hall] at hval
  have hzip : (["0xaaa", "0xbbb"] : List String).zip
      [((true : Bool), 10 ^ 18), ((false : Bool), 0)] =
      [("0xaaa", (true, 10 ^ 18)), ("0xbbb", (false, 0))] := by decide
  rw [hzip] at hval
  simp only [List.map_cons, List.map_nil] at hval
  rw [hval]
  constructor
  · norm_num [mapGet]
  · norm_num [mapGet, show ¬("0xaaa" : String) = "0xbbb" from by decide]

/-- C7 witness: a concrete 250-address input issues exactly the three chunk
calls of sizes 100/100/50, and with an oracle where the sub-call for `"a0"`
fails, every address is still present in the result mapping. -/
theorem fetchBalancesBatch_chunking_witness :
    addrs250.length = 250 ∧
    (fetchBalancesBatch agg250 addrs250).2 = chunks100 addrs250 ∧
    (chunks100 addrs250).map List.length = [100, 100, 50] ∧
    (chunks100 addrs250).length = 3 ∧
    (∀ m, (fetchBalancesBatch agg250 addrs250).1 = Except.ok m →
      ∀ a ∈ addrs250, (mapGet m a).isSome = true) := by
  have hlen : ∀ c rs, agg250 c = Except.ok rs → rs.length = c.length := by
    intro c rs h
    simp only [agg250] at h
    injection h with h2
    rw [← h2]
    simp
  have hok : ∀ c ∈ chunks100 addrs250, ∃ rs, agg250 c = Except.ok rs := by
    intro c _
    exact ⟨_, rfl⟩
  have h250 : addrs250.length = 250 := by simp [addrs250]
  have h := fetchBalancesBatch_chunking agg250 addrs250 hlen hok
  exact ⟨h250, h.1, (h.2.2.1 h250).1, (h.2.2.1 h250).2, h.2.2.2⟩

/-- C5: a failing aggregator call for any chunk makes `fetchBalancesBatch`
return an error (earlier chunks' partial results are discarded — no mapping
comes back), and `handleSyncBalances` then leaves the persisted store — the
wallet collection and the last-sync timestamp alike — completely unchanged. -/
theorem handleSyncBalances_abort
    (agg : List String → Except String (List (Bool × Nat))) (re rok : Bool)
    (ws : List WalletData) (now : String) (st : StoreState)
    (h : ∃ c ∈ chunks100 (ws.map (fun w => w.address)), ∃ e, agg c = Except.error e) :
    (∃ e, (fetchBalancesBatch agg (ws.map (fun w => w.address))).1 =
      Except.error e) ∧
    (handleSyncBalances agg re rok ws now st).1 = st ∧
    (handleSyncBalances agg re rok ws now st).2 = ws := by
  have hne : ws ≠ [] := by
    intro hc
    subst hc
    obtain ⟨c, hc, _⟩ := h
    simp [chunks100_nil] at hc
  have hwemp : ws.isEmpty = false := by
    cases hw : ws with
    | nil => exact absurd hw hne
    | cons a l => rfl
  have hemp : (ws.map (fun w => w.address)).isEmpty = false := by
    cases hw : ws with
    | nil => exact absurd hw hne
    | cons a l => rfl
  have hfetch : (fetchBalancesBatch agg (ws.map (fun w => w.address))).1 =
      (runChunks agg [] (chunks100 (ws.map (fun w => w.address)))).1 := by
    simp [fetchBalancesBatch, hemp]
  obtain ⟨e, he⟩ := runChunks_error agg _ [] h
  have hred : handleSyncBalances agg re rok ws now st = (st, ws) := by
    simp only [handleSyncBalances, hwemp, Bool.false_eq_true, if_false]
    rw [hfetch, he]
  exact ⟨⟨e, by rw [hfetch]; exact he⟩, by rw [hred], by rw [hred]⟩

/-- C5 witness: a one-wallet collection with an always-throwing aggregator:
the fetch errors and the store state is untouched. -/
theorem handleSyncBalances_abort_witness :
    (∃ c ∈ chunks100 ([wA].map (fun w => w.address)), ∃ e,
      aggErr c = Except.error e) ∧
    (∃ e, (fetchBalancesBatch aggErr ([wA].map (fun w => w.address))).1 =
      Except.error e) ∧
    (handleSyncBalances aggErr true true [wA] "2024-01-02T00:00:00.000Z" st0).1 = st0 := by
  have hmem : ∃ c ∈ chunks100 ([wA].map (fun w => w.address)), ∃ e,
      aggErr c = Except.error e := by
    refine ⟨[wA.address], ?_, "transport failure", rfl⟩
    decide
  have h := handleSyncBalances_abort aggErr true true [wA] "2024-01-02T00:00:00.000Z"
    st0 hmem
  exact ⟨hmem, h.1, h.2.1⟩

-- ### Store lemmas and claims

/-- C8: `save()` writes the collection to the local cache first (the first
write event is the local write), then mirrors it to the remote store exactly
when remote is enabled; there is exactly one remote attempt (no retry), and a
failed remote attempt neither rolls back nor fails the local write — the
local cache holds the saved collection afterwards in every case, and the
last-sync timestamps are untouched. -/
theorem saveWallets_local_first (ws : List WalletData) (re rok : Bool)
    (st : StoreState) :
    (saveWallets ws re rok st).2.head? = some (WriteEvent.localWrite ws) ∧
    (saveWallets ws re rok st).1.localWallets = some ws ∧
    (re = true → (saveWallets ws re rok st).2 =
      [WriteEvent.localWrite ws, WriteEvent.remoteWrite ws rok]) ∧
    (re = false → (saveWallets ws re rok st).2 = [WriteEvent.localWrite ws] ∧
      (saveWallets ws re rok st).1.remoteWallets = st.remoteWallets) ∧
    (re = true → rok = true → (saveWallets ws re rok st).1.remoteWallets = ws) ∧
    (re = true → rok = false →
      (saveWallets ws re rok st).1.remoteWallets = st.remoteWallets) ∧
    (saveWallets ws re rok st).1.localLast = st.localLast ∧
    (saveWallets ws re rok st).1.remoteLast = st.remoteLast := by
  cases re <;> cases rok <;> simp [saveWallets]

/-- C8 witness: saving with remote enabled but the remote write failing:
the local cache still holds the saved collection, the remote document is
unchanged, and exactly one (failed) remote attempt follows the local write. -/
theorem saveWallets_local_first_witness :
    (saveWallets [wA] true false st0).2.head? = some (WriteEvent.localWrite [wA]) ∧
    (saveWallets [wA] true false st0).1.localWallets = some [wA] ∧
    (saveWallets [wA] true false st0).2 =
      [WriteEvent.localWrite [wA], WriteEvent.remoteWrite [wA] false] ∧
    (saveWallets [wA] true false st0).1.remoteWallets = st0.remoteWallets := by
  have h := saveWallets_local_first [wA] true false st0
  exact ⟨h.1, h.2.1, h.2.2.1 rfl, h.2.2.2.2.2.1 rfl rfl⟩

theorem listIsEmpty_iff {α : Type} {l : List α} : l.isEmpty = true ↔ l = [] := by
  cases l <;> simp

/-- Branch-level characterization of `getWallets` on a state whose local
cache holds `L` and whose remote collection is `R`. -/
theorem getWallets_eq (R L : List WalletData) (rl ll : Option String) :
    getWallets ⟨R, some L, rl, ll⟩ =
      (if L.isEmpty then (R, ⟨R, some R, rl, ll⟩, false)
       else
        if (L.filter (fun lw =>
            !((R.map (fun w => strToLower w.address)).contains
              (strToLower lw.address)))).isEmpty then
          (R ++ L.filter (fun lw =>
            !((R.map (fun w => strToLower w.address)).contains
              (strToLower lw.address))),
           ⟨R, some (R ++ L.filter (fun lw =>
            !((R.map (fun w => strToLower w.address)).contains
              (strToLower lw.address)))), rl, ll⟩, false)
        else
          (R ++ L.filter (fun lw =>
            !((R.map (fun w => strToLower w.address)).contains
              (strToLower lw.address))),
           ⟨R ++ L.filter (fun lw =>
            !((R.map (fun w => strToLower w.address)).contains
              (strToLower lw.address))),
            some (R ++ L.filter (fun lw =>
              !((R.map (fun w => strToLower w.address)).contains
                (strToLower lw.address)))), rl, ll⟩, true)) := rfl

/-- C2: `load()` with remote enabled returns the remote collection `R`
extended with exactly those local records whose lowercased address is absent
from `R` (remote records are never replaced); it writes the merged collection
back to the remote store iff at least one local record was appended; and the
local cache afterwards equals the merged collection. -/
theorem getWallets_reconciliation (R L : List WalletData) (rl ll : Option String) :
    (getWallets ⟨R, some L, rl, ll⟩).1 =
      R ++ L.filter (fun lw =>
        !((R.map (fun w => strToLower w.address)).contains (strToLower lw.address))) ∧
    ((getWallets ⟨R, some L, rl, ll⟩).2.2 = true ↔
      L.filter (fun lw =>
        !((R.map (fun w => strToLower w.address)).contains
          (strToLower lw.address))) ≠ []) ∧
    (getWallets ⟨R, some L, rl, ll⟩).2.1.localWallets =
      some (getWallets ⟨R, some L, rl, ll⟩).1 ∧
    ((getWallets ⟨R, some L, rl, ll⟩).2.2 = true →
      (getWallets ⟨R, some L, rl, ll⟩).2.1.remoteWallets =
        (getWallets ⟨R, some L, rl, ll⟩).1) ∧
    ((getWallets ⟨R, some L, rl, ll⟩).2.2 = false →
      (getWallets ⟨R, some L, rl, ll⟩).2.1.remoteWallets = R) := by
  by_cases hLnil : L = []
  · subst hLnil
    rw [getWallets_eq]
    simp
  · have hLemp : L.isEmpty = false := by
      cases L with
      | nil => exact absurd rfl hLnil
      | cons a l => rfl
    by_cases hA : (L.filter (fun lw =>
        !((R.map (fun w => strToLower w.address)).contains
          (strToLower lw.address)))) = []
    · have hge : getWallets ⟨R, some L, rl, ll⟩ =
          (R ++ L.filter (fun lw =>
            !((R.map (fun w => strToLower w.address)).contains
              (strToLower lw.address))),
           ⟨R, some (R ++ L.filter (fun lw =>
            !((R.map (fun w => strToLower w.address)).contains
              (strToLower lw.address)))), rl, ll⟩, false) := by
        rw [getWallets_eq, if_neg (by simp [hLemp]), if_pos (listIsEmpty_iff.mpr hA)]
      refine ⟨?_, ?_, ?_, ?_, ?_⟩ <;> rw [hge]
      · constructor
        · intro hcontr
          simp at hcontr
        · intro hcontr
          exact absurd hA hcontr
      · intro hcontr
        simp at hcontr
      · intro _
        rfl
    · have hAe : ¬ ((L.filter (fun lw =>
          !((R.map (fun w => strToLower w.address)).contains
            (strToLower lw.address)))).isEmpty = true) := by
        intro hc
        exact hA (listIsEmpty_iff.mp hc)
      have hge : getWallets ⟨R, some L, rl, ll⟩ =
          (R ++ L.filter (fun lw =>
            !((R.map (fun w => strToLower w.address)).contains
              (strToLower lw.address))),
           ⟨R ++ L.filter (fun lw =>
            !((R.map (fun w => strToLower w.address)).contains
              (strToLower lw.address))),
            some (R ++ L.filter (fun lw =>
              !((R.map (fun w => strToLower w.address)).contains
                (strToLower lw.address)))), rl, ll⟩, true) := by
        rw [getWallets_eq, if_neg (by simp [hLemp]), if_neg hAe]
      refine ⟨?_, ?_, ?_, ?_, ?_⟩ <;> rw [hge]
      · exact ⟨fun _ => hA, fun _ => rfl⟩
      · intro _
        rfl
      · intro hcontr
        simp at hcontr

/-- C2 witness: the spec's reconciliation scenario — remote `{A, B}`, local
`{B (stale, uppercase address), C}`: the merged result keeps remote's `B`,
appends `C`, a save-back to remote occurs, and the local cache equals the
merged set. -/
theorem getWallets_reconciliation_witness :
    (getWallets ⟨[wA, wB], some [wB2, wC], none, none⟩).1 = [wA, wB, wC] ∧
    (getWallets ⟨[wA, wB], some [wB2, wC], none, none⟩).2.2 = true ∧
    (getWallets ⟨[wA, wB], some [wB2, wC], none, none⟩).2.1.localWallets =
      some [wA, wB, wC] ∧
    (getWallets ⟨[wA, wB], some [wB2, wC], none, none⟩).2.1.remoteWallets =
      [wA, wB, wC] := by
  have h := getWallets_reconciliation [wA, wB] [wB2, wC] none none
  have hfil : ([wB2, wC].filter (fun lw =>
      !(([wA, wB].map (fun w => strToLower w.address)).contains
        (strToLower lw.address)))) = [wC] := by decide
  rw [hfil] at h
  obtain ⟨h1, h2, h3, h4, h5⟩ := h
  have hflag : (getWallets ⟨[wA, wB], some [wB2, wC], none, none⟩).2.2 = true :=
    h2.mpr (by simp)
  refine ⟨?_, hflag, ?_, ?_⟩
  · rw [h1]
    rfl
  · rw [h3, h1]
    rfl
  · rw [h4 hflag, h1]
    rfl

-- ### Registration dedup lemmas

theorem mem_keys_wmapSet (m : List WalletData) (w : WalletData) (a : String) :
    a ∈ (wmapSet m w).map WalletData.address ↔
      a ∈ m.map WalletData.address ∨ a = w.address := by
  induction m with
  | nil => simp [wmapSet]
  | cons x rest ih =>
    simp only [wmapSet]
    by_cases hx : x.address = w.address
    · rw [if_pos hx]
      simp only [List.map_cons, List.mem_cons]
      constructor
      · rintro (h | h)
        · exact Or.inr h
        · exact Or.inl (Or.inr h)
      · rintro (h | h)
        · rcases h with h | h
          · exact Or.inl (h.trans hx)
          · exact Or.inr h
        · exact Or.inl h
    · rw [if_neg hx]
      simp only [List.map_cons, List.mem_cons, ih]
      tauto

theorem keys_nodup_wmapSet (m : List WalletData) (w : WalletData)
    (h : (m.map WalletData.address).Nodup) :
    ((wmapSet m w).map WalletData.address).Nodup := by
  induction m with
  | nil => simp [wmapSet]
  | cons x rest ih =>
    simp only [List.map_cons, List.nodup_cons] at h
    simp only [wmapSet]
    by_cases hx : x.address = w.address
    · rw [if_pos hx]
      simp only [List.map_cons, List.nodup_cons]
      exact ⟨hx ▸ h.1, h.2⟩
    · rw [if_neg hx]
      simp only [List.map_cons, List.nodup_cons]
      refine ⟨?_, ih h.2⟩
      rw [mem_keys_wmapSet]
      rintro (hmem | hmem)
      · exact h.1 hmem
      · exact hx hmem

theorem keys_nodup_foldl_wmapSet (l : List WalletData) (m : List WalletData)
    (h : (m.map WalletData.address).Nodup) :
    ((l.foldl wmapSet m).map WalletData.address).Nodup := by
  induction l generalizing m with
  | nil => exact h
  | cons x l ih => exact ih (wmapSet m x) (keys_nodup_wmapSet m x h)

theorem mem_wmapSet (m : List WalletData) (w x : WalletData)
    (h : x ∈ wmapSet m w) : x ∈ m ∨ x = w := by
  induction m with
  | nil =>
    simp only [wmapSet, List.mem_singleton] at h
    exact Or.inr h
  | cons y rest ih =>
    simp only [wmapSet] at h
    by_cases hy : y.address = w.address
    · rw [if_pos hy] at h
      rcases List.mem_cons.mp h with h | h
      · exact Or.inr h
      · exact Or.inl (List.mem_cons_of_mem y h)
    · rw [if_neg hy] at h
      rcases List.mem_cons.mp h with h | h
      · exact Or.inl (by rw [h]; exact List.mem_cons_self y rest)
      · rcases ih h with h2 | h2
        · exact Or.inl (List.mem_cons_of_mem y h2)
        · exact Or.inr h2

theorem mem_foldl_wmapSet (l : List WalletData) (m : List WalletData) (x : WalletData)
    (h : x ∈ l.foldl wmapSet m) : x ∈ m ∨ x ∈ l := by
  induction l generalizing m with
  | nil => exact Or.inl h
  | cons y l ih =>
    rcases ih (wmapSet m y) h with h2 | h2
    · rcases mem_wmapSet m y x h2 with h3 | h3
      · exact Or.inl h3
      · exact Or.inr (by rw [h3]; exact List.mem_cons_self y l)
    · exact Or.inr (List.mem_cons_of_mem y h2)

theorem filter_addr_eq_nil (l : List WalletData) (a : String)
    (h : ∀ x ∈ l, x.address ≠ a) : l.filter (fun x => x.address == a) = [] := by
  induction l with
  | nil => rfl
  | cons y rest ih =>
    rw [List.filter_cons_of_neg (by simp [h y (List.mem_cons_self y rest)])]
    exact ih (fun x hx => h x (List.mem_cons_of_mem y hx))

theorem filter_addr_wmapSet (m : List WalletData) (w : WalletData)
    (h : (m.map WalletData.address).Nodup) :
    (wmapSet m w).filter (fun x => x.address == w.address) = [w] := by
  induction m with
  | nil => simp [wmapSet]
  | cons y rest ih =>
    simp only [List.map_cons, List.nodup_cons] at h
    simp only [wmapSet]
    by_cases hy : y.address = w.address
    · rw [if_pos hy]
      have hrest : rest.filter (fun x => x.address == w.address) = [] := by
        apply filter_addr_eq_nil
        intro x hx hxw
        exact h.1 (by rw [hy, ← hxw]; exact List.mem_map_of_mem WalletData.address hx)
      rw [List.filter_cons_of_pos (by simp), hrest]
    · rw [if_neg hy]
      rw [List.filter_cons_of_neg (by simp [hy]), ih h.2]

/-- C9: after a registration the stored collection holds at most one record
per address (the dedup map makes addresses a unique key); registrations whose
inputs carry lowercase-normalized hex addresses (the guarantee modelled for
the missing bulk-input parser) keep every stored address lowercase-normalized
hex; and registering a single entry for address `X` leaves exactly one record
with address `X`, carrying the new label. -/
theorem registerAddresses_dedup (wallets : List WalletData)
    (entries : List (String × String)) (blk : Nat) (balances : List (String × ℚ))
    (now : String) :
    ((registerAddresses wallets entries blk balances now).map
      WalletData.address).Nodup ∧
    ((∀ w ∈ wallets, isLowerHexAddr w.address = true) →
     (∀ e ∈ entries, isLowerHexAddr e.1 = true) →
      ∀ w ∈ registerAddresses wallets entries blk balances now,
        isLowerHexAddr w.address = true) ∧
    (∀ X lbl, entries = [(X, lbl)] →
      (registerAddresses wallets entries blk balances now).filter
        (fun x => x.address == X) =
        [buildNewWallet wallets.length 0 blk balances now (X, lbl)] ∧
      (lbl ≠ "" → ∀ w ∈ registerAddresses wallets entries blk balances now,
        w.address = X → w.owner = lbl)) := by
  refine ⟨keys_nodup_foldl_wmapSet _ [] (by simp), ?_, ?_⟩
  · intro hw he w hwmem
    rcases mem_foldl_wmapSet _ [] w hwmem with hmem | hmem
    · simp at hmem
    · rcases List.mem_append.mp hmem with hmem | hmem
      · exact hw w hmem
      · simp only [registerAddresses, List.mem_map] at hmem
        obtain ⟨p, hp, hpw⟩ := hmem
        have hpent : p.2 ∈ entries := by
          have hsnd := List.enum_map_snd entries
          rw [← hsnd]
          exact List.mem_map_of_mem Prod.snd hp
        rw [← hpw]
        exact he p.2 hpent
  · intro X lbl hent
    subst hent
    have hrec : registerAddresses wallets [(X, lbl)] blk balances now =
        wmapSet (wallets.foldl wmapSet [])
          (buildNewWallet wallets.length 0 blk balances now (X, lbl)) := by
      show (wallets ++ [buildNewWallet wallets.length 0 blk balances now (X, lbl)]).foldl
        wmapSet [] = _
      rw [List.foldl_append]
      rfl
    have hnd0 : ((wallets.foldl wmapSet []).map WalletData.address).Nodup :=
      keys_nodup_foldl_wmapSet wallets [] (by simp)
    have hfil : (wmapSet (wallets.foldl wmapSet [])
        (buildNewWallet wallets.length 0 blk balances now (X, lbl))).filter
        (fun x => x.address == X) =
        [buildNewWallet wallets.length 0 blk balances now (X, lbl)] :=
      filter_addr_wmapSet (wallets.foldl wmapSet [])
        (buildNewWallet wallets.length 0 blk balances now (X, lbl)) hnd0
    constructor
    · rw [hrec]
      exact hfil
    · intro hlbl w hwmem hwaddr
      have hwfil : w ∈ (registerAddresses wallets [(X, lbl)] blk balances now).filter
          (fun x => x.address == X) :=
        List.mem_filter.mpr ⟨hwmem, by simp [hwaddr]⟩
      rw [hrec] at hwfil
      rw [hfil] at hwfil
      simp only [List.mem_singleton] at hwfil
      rw [hwfil]
      show (if lbl = "" then "Wallet #" ++ toString (wallets.length + 0 + 1) else lbl) = lbl
      rw [if_neg hlbl]

/-- C9 witness: registering `addrD` with label `"A"` and then re-registering
it with label `"B"` leaves exactly one record for `addrD`, whose label is
`"B"`; all addresses stay unique and lowercase-normalized hex. -/
theorem registerAddresses_dedup_witness :
    ((registerAddresses regA [(addrD, "B")] 0 [] "2024-01-02T00:00:00.000Z").map
      WalletData.address).Nodup ∧
    (∀ w ∈ registerAddresses regA [(addrD, "B")] 0 [] "2024-01-02T00:00:00.000Z",
      isLowerHexAddr w.address = true) ∧
    (registerAddresses regA [(addrD, "B")] 0 [] "2024-01-02T00:00:00.000Z").filter
      (fun x => x.address == addrD) =
      [buildNewWallet regA.length 0 0 [] "2024-01-02T00:00:00.000Z" (addrD, "B")] ∧
    (∀ w ∈ registerAddresses regA [(addrD, "B")] 0 [] "2024-01-02T00:00:00.000Z",
      w.address = addrD → w.owner = "B") := by
  have h := registerAddresses_dedup regA [(addrD, "B")] 0 [] "2024-01-02T00:00:00.000Z"
  refine ⟨h.1, h.2.1 (by decide) (by decide), (h.2.2 addrD "B" rfl).1, ?_⟩
  intro w hw hwa
  exact (h.2.2 addrD "B" rfl).2 (by decide) w hw hwa

-- ### Startup auto-sync claim

/-- C1 counterexample: at a startup state with no stored last-sync timestamp
(`none`, which also models the falsy empty string), the automatic refresh is
NOT triggered, contradicting the claim that an absent timestamp triggers it. -/
theorem autoSync_absent_no_trigger : autoSyncTriggered none 0 = false := rfl

/-- C1 (amended): on process start the automatic `syncNow` is triggered iff a
last-sync timestamp is present AND lies more than 24 hours (86,400,000 ms)
away from now; with an absent timestamp no automatic refresh happens. -/
theorem autoSyncTriggered_iff (last : Option Int) (now : Int) :
    autoSyncTriggered last now = true ↔
      ∃ l, last = some l ∧ 24 * 3600000 < (now - l).natAbs := by
  cases last with
  | none => simp [autoSyncTriggered]
  | some l =>
    constructor
    · intro h
      have h' : (24 : ℚ) < ((now - l).natAbs : ℚ) / 3600000 := by
        simpa [autoSyncTriggered] using h
      refine ⟨l, rfl, ?_⟩
      have h2 : (24 : ℚ) * 3600000 < ((now - l).natAbs : ℚ) := by
        rwa [lt_div_iff₀ (by norm_num)] at h'
      exact_mod_cast h2
    · rintro ⟨l', hl', h⟩
      have hll : l = l' := by injection hl'
      subst hll
      show autoSyncTriggered (some l) now = true
      simp only [autoSyncTriggered, decide_eq_true_eq]
      rw [lt_div_iff₀ (by norm_num)]
      exact_mod_cast h

/-- C1 witness: a last-sync timestamp just over 24 hours old triggers the
automatic refresh. -/
theorem autoSyncTriggered_iff_witness :
    autoSyncTriggered (some 0) 86400001 = true :=
  (autoSyncTriggered_iff (some 0) 86400001).mpr ⟨0, rfl, by decide⟩
